import Mathlib

/-!
Verification development for the Oncehub resource-pool dashboard.

The repository's algorithmic core consists of:
* `src/lib/parseResourcePoolCsv.ts` — the tabular parser turning a two-row
  merged-header CSV layout into `ResourcePool` records (we embed the
  visit-type-aware variant, lines 40–143 of the file);
* `src/lib/useExclusions.ts` — the exclusion resolver merging a server-side
  `ExclusionsData` with client-side overrides (we embed the scoped variant,
  lines 197–288 of the file);
* `src/lib/csvExport.ts` — RFC4180-style CSV field escaping;
* the `normalize` helpers (`normalizeUserName`, `isValidUser`, `dedupeUsers`).

JavaScript strings are modeled as Lean `String`s; all character-level
operations (`trim`, `toLowerCase`, `replace(/\s+/g, " ")`, `includes`,
`split`, `startsWith`) are implemented by structural recursion over
`String.data` so that every definition evaluates inside the kernel.
`toLowerCase` is modeled on ASCII, and whitespace as space/tab/CR/LF: every
string the repository's checks compare against is ASCII.  `Papa.parse` is an
external library; the parser is embedded from the point where the code
receives `result.data : string[][]`, so theorems quantify over all row
matrices (a superset of all Papa outputs).
-/

namespace Oncehub

/-- ASCII whitespace test modeling the JavaScript `\s` class / `trim()`
(restricted to the ASCII whitespace characters). -/
def isWsChar (c : Char) : Bool :=
  decide (c = ' ') || decide (c = '\t') || decide (c = '\n') || decide (c = '\r')

/-- ASCII lower-casing of one character, modeling `toLowerCase()` on the
ASCII fragment. -/
def asciiLower (c : Char) : Char :=
  if 65 ≤ c.toNat ∧ c.toNat ≤ 90 then Char.ofNat (c.toNat + 32) else c

/-- Remove leading and trailing whitespace, modeling `String.prototype.trim`. -/
def trimChars (cs : List Char) : List Char :=
  ((cs.dropWhile isWsChar).reverse.dropWhile isWsChar).reverse

/-- Replace every maximal whitespace run by a single space, modeling
`replace(/\s+/g, " ")`.  The boolean argument records whether the previous
character was whitespace (i.e. whether we are inside a run). -/
def collapseWsAux : Bool → List Char → List Char
  | _, [] => []
  | prevWs, c :: cs =>
    if isWsChar c then
      if prevWs then collapseWsAux true cs else ' ' :: collapseWsAux true cs
    else c :: collapseWsAux false cs

/-- Boolean test that `pat` occurs at the start of `s`, modeling
`String.prototype.startsWith`. -/
def leadsWith : List Char → List Char → Bool
  | [], _ => true
  | _ :: _, [] => false
  | a :: as, b :: bs => decide (a = b) && leadsWith as bs

/-- Boolean substring test, modeling `String.prototype.includes`. -/
def hasSubList (pat : List Char) : List Char → Bool
  | [] => decide (pat = [])
  | c :: rest => leadsWith pat (c :: rest) || hasSubList pat rest

/-- Split on a separator character, modeling `String.prototype.split` with a
one-character separator. -/
def splitChar (sep : Char) : List Char → List (List Char)
  | [] => [[]]
  | c :: rest =>
    match splitChar sep rest with
    | [] => [[]]
    | p :: ps => if c = sep then [] :: p :: ps else (c :: p) :: ps

/-- `trim()` lifted to `String`. -/
def trimStr (s : String) : String := (trimChars s.toList).asString

/-- ASCII `toLowerCase()` lifted to `String`. -/
def lowerStr (s : String) : String := (s.toList.map asciiLower).asString

/-- `includes` lifted to `String`: does `s` contain `pat` as a substring? -/
def hasSubStr (pat s : String) : Bool := hasSubList pat.toList s.toList

/-- Model of `name.toLowerCase().trim()`, the normalization the exclusion
resolver applies to user names before comparing them. -/
def lowerTrim (s : String) : String := (trimChars (s.toList.map asciiLower)).asString

/-- From `src/lib/data.ts` (`normalize` helpers): trim whitespace and collapse
internal whitespace runs to single spaces (`name.trim().replace(/\s+/g, " ")`).
The falsy/non-string guard of the source returns `""` for `""`, which the
pipeline already does. -/
def normalizeUserName (name : String) : String :=
  (collapseWsAux false (trimChars name.toList)).asString

/-- From `src/lib/data.ts`: a user entry is valid when it is non-empty after
normalization (`normalizeUserName(name).length > 0`). -/
def isValidUser (name : String) : Bool :=
  decide (0 < (normalizeUserName name).length)

/-- Helper for `dedupeUsers`: keep the first occurrence of each string,
skipping those already seen.  `[...new Set(users)]` iterates the set in
insertion order, which is exactly first-occurrence order. -/
def dedupeAux (seen : List String) : List String → List String
  | [] => []
  | u :: us => if decide (u ∈ seen) then dedupeAux seen us else u :: dedupeAux (u :: seen) us

/-- From `src/lib/data.ts`: case-sensitive de-duplication preserving
first-occurrence order (`[...new Set(users)]`). -/
def dedupeUsers (users : List String) : List String := dedupeAux [] users

/-- The two program tracks (`type Program = "HRT" | "TRT"`). -/
inductive Program where
  | HRT : Program
  | TRT : Program
deriving DecidableEq

/-- A parsed resource pool (visit-type-aware variant of
`src/lib/types.ts`).  `visitType` is a `String` because the TypeScript cast
`key.split("|") as [string, VisitType]` is unchecked at runtime: the actual
runtime value is whatever string the split produced. -/
structure ResourcePool where
  program : Program
  state : String
  visitType : String
  users : List String
deriving DecidableEq

/-- From `src/lib/parseResourcePoolCsv.ts` lines 8–18: a header cell is
ignored when it is falsy, empty after trimming, starts with `"unnamed"`,
equals the legend token `"key"`, or contains a legend phrase (all checks on
`header.trim().toLowerCase()`). -/
def shouldIgnoreHeader (header : String) : Bool :=
  if decide (header = "") then true
  else
    let trimmed := lowerStr (trimStr header)
    decide (trimmed = "") || leadsWith "unnamed".toList trimmed.toList ||
      decide (trimmed = "key") || hasSubStr "please add" trimmed ||
      hasSubStr "pending" trimmed || hasSubStr "provider has" trimmed

/-- From `src/lib/parseResourcePoolCsv.ts` lines 23–27: map a second-row label
to a visit type by case-insensitive substring match on `"follow"`, defaulting
to `"Initial"` (the label is lower-cased then trimmed in the source). -/
def getVisitType (label : String) : String :=
  if hasSubStr "follow" (trimStr (lowerStr label)) then "Follow Up" else "Initial"

/-- Does `\s*\(.*\)\s*$` match when anchored at the start of this suffix?
After optional whitespace there must be `'('`, and the remaining tail must
end (up to trailing whitespace) at `')'`, with no line break in between
(`.` does not match line terminators). -/
def parenTailOk (tail : List Char) : Bool :=
  match tail.reverse.dropWhile isWsChar with
  | ')' :: mid => decide ('\n' ∉ mid) && decide ('\r' ∉ mid)
  | _ => false

/-- See `parenTailOk`; this checks the whole pattern anchored at the start of
`cs`. -/
def parenSuffixAt (cs : List Char) : Bool :=
  match cs.dropWhile isWsChar with
  | '(' :: tail => parenTailOk tail
  | _ => false

/-- Leftmost index at which `\s*\(.*\)\s*$` matches, if any. -/
def parenIdx : List Char → Option Nat
  | [] => none
  | c :: rest => if parenSuffixAt (c :: rest) then some 0 else (parenIdx rest).map (· + 1)

/-- Model of `.replace(/\s*\(.*\)\s*$/g, "")`: the regex is anchored at the
end of the string, so it deletes from the leftmost match position (if any) to
the end, and the `g` flag finds no further match. -/
def removeParenSuffix (cs : List Char) : List Char :=
  match parenIdx cs with
  | some i => cs.take i
  | none => cs

/-- From `src/lib/parseResourcePoolCsv.ts` lines 73–76: clean up a state name
by removing a trailing parenthetical note, collapsing whitespace runs, and
trimming. -/
def stateNormalize (trimmed : String) : String :=
  (trimChars (collapseWsAux false (removeParenSuffix trimmed.toList))).asString

/-- From `src/lib/parseResourcePoolCsv.ts` lines 63–84: build the column map.
Each entry is `(index, state, visitType)`.  A valid header sets
`lastValidState` and maps its column; a column whose header is empty after
trimming inherits `lastValidState` when that is non-empty (truthy); all other
columns are dropped.  `visitType` always comes from
`getVisitType(visitTypeRow[index] || "")`. -/
def buildCMAux (vtRow : List String) : List String → Nat → String → List (Nat × String × String)
  | [], _, _ => []
  | h :: hs, i, lastValid =>
    let trimmed := trimStr h
    let vt := getVisitType (vtRow.getD i "")
    if !(shouldIgnoreHeader trimmed) && !(decide (trimmed = "")) then
      (i, stateNormalize trimmed, vt) :: buildCMAux vtRow hs (i + 1) (stateNormalize trimmed)
    else if decide (trimmed = "") && !(decide (lastValid = "")) then
      (i, lastValid, vt) :: buildCMAux vtRow hs (i + 1) lastValid
    else
      buildCMAux vtRow hs (i + 1) lastValid

/-- Column map of the parser, starting at index `0` with no previous valid
state (`lastValidState = ""`). -/
def buildColumnMap (headerRow vtRow : List String) : List (Nat × String × String) :=
  buildCMAux vtRow headerRow 0 ""

/-- Append a user to the bucket for `key`, creating the bucket at the end on
first use.  This models `stateUsersMap.get(key)!.push(...)` together with the
`Map` insertion-order iteration contract. -/
def pushUser (m : List (String × List String)) (key : String) (u : String) : List (String × List String) :=
  match m with
  | [] => [(key, [u])]
  | (k, us) :: rest =>
    if decide (k = key) then (k, us ++ [u]) :: rest else (k, us) :: pushUser rest key u

/-- The combined data-cell rejection test of
`src/lib/parseResourcePoolCsv.ts` lines 101–105 (the two successive `if`
statements on `lower`): the cell is skipped when its lower-cased normalized
form equals `"closed"`, `"key"` or `"back-up"`, or contains `"please add"`,
`"pending"`, `"provider has"` or `"license"`. -/
def sentinelName (u : String) : Bool :=
  let lower := lowerStr u
  decide (lower = "closed") || hasSubStr "please add" lower ||
    decide (lower = "key") || decide (lower = "back-up") ||
    hasSubStr "pending" lower || hasSubStr "provider has" lower ||
    hasSubStr "license" lower

/-- From `src/lib/parseResourcePoolCsv.ts` lines 94–113: read one cell for
one mapped column; skip it when out of range (`undefined`), invalid after
normalization, or a sentinel; otherwise push the normalized value onto the
bucket keyed by `` `${state}|${visitType}` ``. -/
def processCell (row : List String) (m : List (String × List String))
    (entry : Nat × String × String) : List (String × List String) :=
  match row.get? entry.1 with
  | none => m
  | some cell =>
    let normalized := normalizeUserName cell
    if !(isValidUser normalized) then m
    else if sentinelName normalized then m
    else pushUser m (entry.2.1 ++ "|" ++ entry.2.2) normalized

/-- Process one data row: skipped entirely when empty, otherwise every mapped
column is read in column order. -/
def processRow (cmap : List (Nat × String × String)) (m : List (String × List String))
    (row : List String) : List (String × List String) :=
  if row.isEmpty then m else cmap.foldl (processCell row) m

/-- Fold all data rows into the `stateUsersMap` association list. -/
def buildUsersMap (cmap : List (Nat × String × String)) (dataRows : List (List String)) :
    List (String × List String) :=
  dataRows.foldl (processRow cmap) []

/-- Model of `` const [state, visitType] = key.split("|") ``: the first two
fragments of the split.  Every key the parser builds contains `"|"`, so the
one-fragment fallback is unreachable there. -/
def decodeKey (key : String) : String × String :=
  match (splitChar '|' key.toList).map List.asString with
  | s :: v :: _ => (s, v)
  | [s] => (s, "")
  | [] => ("", "")

/-- From `src/lib/parseResourcePoolCsv.ts` lines 118–133: turn each bucket
into a `ResourcePool`, de-duplicating its users and dropping empty buckets. -/
def emitPools (program : Program) (m : List (String × List String)) : List ResourcePool :=
  m.filterMap fun kv =>
    let deduped := dedupeUsers kv.2
    if deduped.isEmpty then none
    else some { program := program, state := (decodeKey kv.1).1,
                visitType := (decodeKey kv.1).2, users := deduped }

/-- Lexicographic code-point comparison standing in for
`String.prototype.localeCompare` (which is locale-dependent; none of the
verified properties depend on the particular total order). -/
def listLtChars : List Char → List Char → Bool
  | [], [] => false
  | [], _ :: _ => true
  | _ :: _, [] => false
  | a :: as, b :: bs =>
    if a.toNat < b.toNat then true
    else if b.toNat < a.toNat then false
    else listLtChars as bs

/-- The sort comparator of lines 136–140 read as a `≤` test: state names
first, then `"Initial"` before anything else. -/
def poolLe (a b : ResourcePool) : Bool :=
  if listLtChars a.state.toList b.state.toList then true
  else if listLtChars b.state.toList a.state.toList then false
  else decide (a.visitType = "Initial")

/-- Stable insertion used to model `Array.prototype.sort` (a stable sort). -/
def insertPool (x : ResourcePool) : List ResourcePool → List ResourcePool
  | [] => [x]
  | y :: ys => if poolLe x y then x :: y :: ys else y :: insertPool x ys

/-- Stable sort of the emitted pools. -/
def sortPools : List ResourcePool → List ResourcePool
  | [] => []
  | x :: xs => insertPool x (sortPools xs)

/-- From `src/lib/parseResourcePoolCsv.ts` lines 40–143.  `rows` is the value
of `Papa.parse(csvContent).data`; the external CSV tokenizer is modeled at
this boundary, so quantifying over all `rows` covers all raw inputs.  With
fewer than three rows the result is empty; otherwise row 0 is the state
header row, row 1 the visit-type row, and the rest are data rows. -/
def parseResourcePoolCsv (rows : List (List String)) (program : Program) : List ResourcePool :=
  if rows.length < 3 then []
  else
    let headerRow := rows.getD 0 []
    let visitTypeRow := rows.getD 1 []
    let dataRows := rows.drop 2
    let cmap := buildColumnMap headerRow visitTypeRow
    let m := buildUsersMap cmap dataRows
    sortPools (emitPools program m)

/-- One exclusion assertion (`interface StateExclusion` of `src/lib/types.ts`
in its visit-type-aware shape): `visitType` is optional (`none` models the
field being `undefined`). -/
structure StateExclusion where
  program : Program
  state : String
  user : String
  visitType : Option String
deriving DecidableEq

/-- The server-provided exclusion data (`interface ExclusionsData`): a legacy
flat list of globally excluded names, plus the scoped records. -/
structure ExclusionsData where
  excludedUsers : List String
  stateExclusions : List StateExclusion
deriving DecidableEq

/-- JavaScript truthiness of an optional string: `undefined` and `""` are
falsy, everything else truthy. -/
def falsyOptStr (o : Option String) : Bool := decide (o.getD "" = "")

/-- The global (unscoped) branch of `isExcluded`
(`src/lib/useExclusions.ts` lines 201–210): the name matches some scoped
server record or some override by case-insensitive trimmed user name,
ignoring every entry's state/program.  The legacy flat `excludedUsers` list
is not consulted. -/
def globalExcluded (base : ExclusionsData) (overrides : List StateExclusion)
    (lowerName : String) : Bool :=
  base.stateExclusions.any (fun e => decide (lowerTrim e.user = lowerName)) ||
    overrides.any (fun e => decide (lowerTrim e.user = lowerName))

/-- The scoped match predicate of `isExcluded` (lines 213–232): program and
state equal, user equal case-insensitively after trimming, and the visit
types compatible (`!visitType || !e.visitType || e.visitType === visitType`). -/
def scopedPred (pr : Program) (st : String) (lowerName : String) (qvt : Option String)
    (e : StateExclusion) : Bool :=
  decide (e.program = pr) && decide (e.state = st) &&
    decide (lowerTrim e.user = lowerName) &&
    (falsyOptStr qvt || falsyOptStr e.visitType || decide (e.visitType = qvt))

/-- From `src/lib/useExclusions.ts` lines 197–237 (scoped variant).  The
source guard `!state || !program` sends the query to the global branch when
`state` is `undefined` or `""`, or `program` is `undefined` (a `Program`
value is never falsy).  On the scoped branch a matching override means
excluded; otherwise the scoped server records are consulted. -/
def isExcluded (base : ExclusionsData) (overrides : List StateExclusion) (name : String)
    (state : Option String) (program : Option Program) (visitType : Option String) : Bool :=
  let lowerName := lowerTrim name
  match state, program with
  | some st, some pr =>
    if decide (st = "") then globalExcluded base overrides lowerName
    else if (overrides.find? (scopedPred pr st lowerName visitType)).isSome then true
    else base.stateExclusions.any (scopedPred pr st lowerName visitType)
  | _, _ => globalExcluded base overrides lowerName

/-- The key on which `toggleExcluded` looks up an existing override
(lines 242–248): exact program, state and `visitType` (strict `===`, so
`undefined` only matches `undefined`), and case-insensitive trimmed user. -/
def togglePred (pr : Program) (st : String) (lowerName : String) (qvt : Option String)
    (e : StateExclusion) : Bool :=
  decide (e.program = pr) && decide (e.state = st) &&
    decide (lowerTrim e.user = lowerName) && decide (e.visitType = qvt)

/-- From `src/lib/useExclusions.ts` lines 239–256: remove the first override
matching the toggle key, or append a fresh entry when none matches. -/
def toggleExcluded (name : String) (st : String) (pr : Program) (qvt : Option String)
    (prev : List StateExclusion) : List StateExclusion :=
  match prev.findIdx? (togglePred pr st (lowerTrim name) qvt) with
  | some i => prev.eraseIdx i
  | none => prev ++ [{ program := pr, state := st, user := name, visitType := qvt }]

/-- The scope filter of `getExcludedCountForState` (lines 260–268): program
and state equal and visit types compatible (the user name is not inspected). -/
def countScopePred (pr : Program) (st : String) (qvt : Option String)
    (e : StateExclusion) : Bool :=
  decide (e.program = pr) && decide (e.state = st) &&
    (falsyOptStr qvt || falsyOptStr e.visitType || decide (e.visitType = qvt))

/-- From `src/lib/useExclusions.ts` lines 258–273: count of base records
matching the scope plus count of override records matching the scope. -/
def getExcludedCountForState (base : ExclusionsData) (overrides : List StateExclusion)
    (st : String) (pr : Program) (qvt : Option String) : Nat :=
  (base.stateExclusions.filter (countScopePred pr st qvt)).length +
    (overrides.filter (countScopePred pr st qvt)).length

/-- From `src/lib/useExclusions.ts` lines 275–288: count of base records for
the program plus count of override records for the program. -/
def getTotalExcludedCount (base : ExclusionsData) (overrides : List StateExclusion)
    (pr : Program) : Nat :=
  (base.stateExclusions.filter (fun e => decide (e.program = pr))).length +
    (overrides.filter (fun e => decide (e.program = pr))).length

/-- Model of `field.replace(/"/g, '""')`: double every double-quote
character. -/
def doubleQuoteChars : List Char → List Char
  | [] => []
  | c :: cs => if c = '"' then '"' :: '"' :: doubleQuoteChars cs else c :: doubleQuoteChars cs

/-- From `src/lib/csvExport.ts` lines 47–59: a field containing a comma,
newline or double quote is wrapped in double quotes with embedded double
quotes doubled; any other field is returned unchanged. -/
def escapeCSVField (field : String) : String :=
  if decide (',' ∈ field.toList) || decide ('\n' ∈ field.toList) ||
      decide ('"' ∈ field.toList) then
    "\"" ++ (doubleQuoteChars field.toList).asString ++ "\""
  else field

/-- Comma join, modeling `Array.prototype.join(",")`. -/
def joinComma : List String → String
  | [] => ""
  | [x] => x
  | x :: y :: xs => x ++ "," ++ joinComma (y :: xs)

/-- Newline join, modeling `csvRows.join("\n")`. -/
def joinNl : List String → String
  | [] => ""
  | [x] => x
  | x :: y :: xs => x ++ "\n" ++ joinNl (y :: xs)

/-- Model of `row[header] || ""`: the value stored under `header`, defaulting
to `""` when absent (rows are association lists in key insertion order). -/
def lookupField (row : List (String × String)) (h : String) : String :=
  match row.find? (fun kv => decide (kv.1 = h)) with
  | some kv => kv.2
  | none => ""

/-- One serialized data row of `downloadCsv`: the escaped values of the
header columns. -/
def csvLine (headers : List String) (row : List (String × String)) : String :=
  joinComma (headers.map fun h => escapeCSVField (lookupField row h))

/-- The CSV text built by `downloadCsv` (`src/lib/csvExport.ts` lines 4–28):
`none` when there is no data (the function alerts and returns without
serializing); otherwise the escaped header row followed by one line per data
row, joined by newlines.  The headers are the keys of the first row. -/
def csvContentOf (data : List (List (String × String))) : Option String :=
  match data with
  | [] => none
  | first :: _ =>
    let headers := first.map (·.1)
    some (joinNl (joinComma (headers.map escapeCSVField) :: data.map (csvLine headers)))

/-! ### General lemmas about the embedded operations -/

theorem perm_insertPool (x : ResourcePool) (l : List ResourcePool) :
    List.Perm (insertPool x l) (x :: l) := by
  induction l with
  | nil => simp [insertPool]
  | cons y ys ih =>
    simp only [insertPool]
    split
    · exact List.Perm.refl _
    · exact (ih.cons y).trans (List.Perm.swap x y ys)

theorem perm_sortPools (l : List ResourcePool) : List.Perm (sortPools l) l := by
  induction l with
  | nil => simp [sortPools]
  | cons x xs ih => exact (perm_insertPool x (sortPools xs)).trans (ih.cons x)

theorem dedupeAux_nodup_notmem (l : List String) :
    ∀ seen, (dedupeAux seen l).Nodup ∧ ∀ x ∈ dedupeAux seen l, x ∉ seen := by
  induction l with
  | nil => intro seen; simp [dedupeAux]
  | cons u us ih =>
    intro seen
    simp only [dedupeAux]
    split
    · exact ih seen
    · rename_i hu
      obtain ⟨hnd, hmem⟩ := ih (u :: seen)
      refine ⟨List.nodup_cons.mpr ⟨fun hin => (hmem u hin) (List.mem_cons_self u seen), hnd⟩, ?_⟩
      intro x hx
      rcases List.mem_cons.mp hx with rfl | hx'
      · simpa using hu
      · exact fun hxs => (hmem x hx') (List.mem_cons_of_mem u hxs)

theorem dedupeUsers_nodup (l : List String) : (dedupeUsers l).Nodup :=
  (dedupeAux_nodup_notmem l []).1

theorem mem_dedupeAux (l : List String) :
    ∀ seen x, x ∈ dedupeAux seen l → x ∈ l := by
  induction l with
  | nil => intro seen x h; simp [dedupeAux] at h
  | cons u us ih =>
    intro seen x h
    simp only [dedupeAux] at h
    split at h
    · exact List.mem_cons_of_mem u (ih seen x h)
    · rcases List.mem_cons.mp h with rfl | h'
      · exact List.mem_cons_self x us
      · exact List.mem_cons_of_mem u (ih (u :: seen) x h')

theorem mem_dedupeUsers (l : List String) (x : String) (h : x ∈ dedupeUsers l) : x ∈ l :=
  mem_dedupeAux l [] x h

theorem foldl_preserve {α β : Type} (P : β → Prop) (f : β → α → β) :
    ∀ (l : List α) (b : β), (∀ b a, a ∈ l → P b → P (f b a)) → P b → P (l.foldl f b) := by
  intro l
  induction l with
  | nil => intro b _ hb; simpa using hb
  | cons a as ih =>
    intro b hstep hb
    simp only [List.foldl_cons]
    exact ih (f b a) (fun b' a' ha' => hstep b' a' (List.mem_cons_of_mem a ha'))
      (hstep b a (List.mem_cons_self a as) hb)

theorem mem_pushUser (k : String) (u : String) :
    ∀ m kv, kv ∈ pushUser m k u →
      kv ∈ m ∨ (kv.1 = k ∧ (kv.2 = [u] ∨ ∃ us, (k, us) ∈ m ∧ kv.2 = us ++ [u])) := by
  intro m
  induction m with
  | nil =>
    intro kv h
    simp only [pushUser] at h
    rcases List.mem_singleton.mp h with rfl
    exact Or.inr ⟨rfl, Or.inl rfl⟩
  | cons hd rest ih =>
    intro kv h
    obtain ⟨k', us'⟩ := hd
    simp only [pushUser] at h
    split at h
    · rename_i heq
      simp only [decide_eq_true_eq] at heq
      subst heq
      rcases List.mem_cons.mp h with rfl | h'
      · exact Or.inr ⟨rfl, Or.inr ⟨us', List.mem_cons_self _ _, rfl⟩⟩
      · exact Or.inl (List.mem_cons_of_mem _ h')
    · rcases List.mem_cons.mp h with rfl | h'
      · exact Or.inl (List.mem_cons_self _ _)
      · rcases ih kv h' with hin | ⟨h1, h2⟩
        · exact Or.inl (List.mem_cons_of_mem _ hin)
        · refine Or.inr ⟨h1, ?_⟩
          rcases h2 with h2 | ⟨us, hus, h3⟩
          · exact Or.inl h2
          · exact Or.inr ⟨us, List.mem_cons_of_mem _ hus, h3⟩

theorem mem_emitPools (program : Program) (m : List (String × List String))
    (p : ResourcePool) (h : p ∈ emitPools program m) :
    ∃ kv ∈ m, dedupeUsers kv.2 ≠ [] ∧
      p = { program := program, state := (decodeKey kv.1).1,
            visitType := (decodeKey kv.1).2, users := dedupeUsers kv.2 } := by
  simp only [emitPools, List.mem_filterMap] at h
  obtain ⟨kv, hkv, hsome⟩ := h
  by_cases he : (dedupeUsers kv.2).isEmpty
  · simp [he] at hsome
  · rw [if_neg he] at hsome
    rcases Option.some.inj hsome with rfl
    exact ⟨kv, hkv, fun hnil => he (by simp [hnil]), rfl⟩

/-! ### Claim C1 — the unscoped query -/

/-- C1, counterexample.  The claim states that the unscoped query
`isExcluded(name)` returns true iff the name appears (case-insensitively,
trimmed) in the base global excluded-names list (`excludedUsers`) or in some
override entry.  With `excludedUsers = ["Jane Doe"]`, no scoped records and
no overrides, the claim's right-hand side holds but the code returns
`false`: the unscoped branch reads only `stateExclusions` and the overrides,
never the legacy flat list. -/
theorem C1_counterexample :
    ¬ ((isExcluded ⟨["Jane Doe"], []⟩ [] "Jane Doe" none none none = true) ↔
      ((∃ u ∈ (["Jane Doe"] : List String), lowerTrim u = lowerTrim "Jane Doe") ∨
        ∃ e ∈ ([] : List StateExclusion), lowerTrim e.user = lowerTrim "Jane Doe")) := by
  decide

/-- C1, amended: the unscoped query `isExcluded(name)` (no state/program)
returns true iff the trimmed, lower-cased name appears in some entry of the
base scoped `stateExclusions` list or in some override entry, regardless of
the state/program recorded on any entry; the legacy flat `excludedUsers`
list is not consulted. -/
theorem C1_amended (base : ExclusionsData) (overrides : List StateExclusion) (name : String) :
    isExcluded base overrides name none none none = true ↔
      ((∃ e ∈ base.stateExclusions, lowerTrim e.user = lowerTrim name) ∨
        ∃ e ∈ overrides, lowerTrim e.user = lowerTrim name) := by
  simp [isExcluded, globalExcluded, List.any_eq_true]

/-! ### Claim C2 — the worked three-row example -/

/-- C2: parsing the three rows `["Florida","","Texas"]`,
`["Initial","Follow Up","Initial"]`, `["John Smith","Maria G",""]` for one
program yields exactly the (Florida, Initial) pool `["John Smith"]` and the
(Florida, Follow Up) pool `["Maria G"]` — the blank second column inherits
Florida — and no Texas pool, whose user list is empty after filtering. -/
theorem C2_example :
    parseResourcePoolCsv
        [["Florida", "", "Texas"], ["Initial", "Follow Up", "Initial"],
          ["John Smith", "Maria G", ""]] Program.HRT =
      [⟨Program.HRT, "Florida", "Initial", ["John Smith"]⟩,
        ⟨Program.HRT, "Florida", "Follow Up", ["Maria G"]⟩] := by
  decide

/-! ### Claim C7 — the legacy flat list on the scoped path -/

/-- C7: when the scoped query takes the scoped path (a truthy, i.e.
non-empty, state), no scoped base record matches (program, state, name) and
there are no overrides, `isExcluded` returns false even though the name is
in the legacy flat `excludedUsers` list: the flat list is not consulted on
the scoped path. -/
theorem C7_flat_list_not_consulted (base : ExclusionsData) (name st : String) (pr : Program)
    (hst : st ≠ "")
    (hnomatch : ∀ e ∈ base.stateExclusions,
      ¬(e.program = pr ∧ e.state = st ∧ lowerTrim e.user = lowerTrim name))
    (_hflat : name ∈ base.excludedUsers) :
    isExcluded base [] name (some st) (some pr) none = false := by
  simp only [isExcluded, List.find?_nil, Option.isSome_none, Bool.false_eq_true, if_false,
    decide_eq_true_eq, if_neg hst]
  rw [List.any_eq_false]
  intro e he
  have h := hnomatch e he
  simp only [scopedPred, falsyOptStr, Bool.and_eq_true, decide_eq_true_eq, Bool.or_eq_true]
  tauto

/-- Witness for C7 at a concrete resolver state: `"Sam"` is only in the flat
list (plus an unrelated Texas record), so the scoped Ohio query is false. -/
theorem C7_witness :
    isExcluded ⟨["Sam"], [⟨Program.HRT, "Texas", "Sam", none⟩]⟩ [] "Sam"
      (some "Ohio") (some Program.HRT) none = false :=
  C7_flat_list_not_consulted ⟨["Sam"], [⟨Program.HRT, "Texas", "Sam", none⟩]⟩ "Sam" "Ohio"
    Program.HRT (by decide) (by decide) (by decide)

/-! ### Claim C8 — count aggregation is a naive two-layer sum -/

/-- C8: `getTotalExcludedCount` is the number of base scoped records whose
program matches plus the number of overrides whose program matches, and
`getExcludedCountForState` is the number of base records matching the
(state, program, visit-type) scope plus the number of overrides matching the
same scope; a name present in both layers is counted twice (no
deduplication between the two summands). -/
theorem C8_counts (base : ExclusionsData) (overrides : List StateExclusion)
    (st : String) (pr : Program) (qvt : Option String) :
    getTotalExcludedCount base overrides pr =
        base.stateExclusions.countP (fun e => decide (e.program = pr)) +
          overrides.countP (fun e => decide (e.program = pr)) ∧
      getExcludedCountForState base overrides st pr qvt =
        base.stateExclusions.countP (countScopePred pr st qvt) +
          overrides.countP (countScopePred pr st qvt) := by
  constructor <;>
    simp [getTotalExcludedCount, getExcludedCountForState, List.countP_eq_length_filter]

/-! ### Claim C9 — CSV field escaping and deterministic serialization -/

/-- C9: a field without comma, double quote or newline is left unchanged by
`escapeCSVField`; any other field is wrapped in double quotes with every
embedded double quote doubled; and serializing the same row sequence twice
produces identical output (the serializer is a pure function of the rows). -/
theorem C9_escape (field : String) :
    (¬(',' ∈ field.toList ∨ '\n' ∈ field.toList ∨ '"' ∈ field.toList) →
        escapeCSVField field = field) ∧
      ((',' ∈ field.toList ∨ '\n' ∈ field.toList ∨ '"' ∈ field.toList) →
        escapeCSVField field = "\"" ++ (doubleQuoteChars field.toList).asString ++ "\"") ∧
      ∀ data : List (List (String × String)), csvContentOf data = csvContentOf data := by
  refine ⟨fun h => ?_, fun h => ?_, fun _ => rfl⟩
  · rw [escapeCSVField, if_neg]
    simp only [Bool.or_eq_true, decide_eq_true_eq]
    tauto
  · rw [escapeCSVField, if_pos]
    simp only [Bool.or_eq_true, decide_eq_true_eq]
    tauto

/-- Witness for C9 at concrete fields: `"a,b"` is quoted, `"ab"` is
unchanged. -/
theorem C9_witness :
    escapeCSVField "a,b" = "\"a,b\"" ∧ escapeCSVField "ab" = "ab" :=
  ⟨(C9_escape "a,b").2.1 (by decide), (C9_escape "ab").1 (by decide)⟩

/-! ### Unfolding parser membership -/

theorem mem_parse (rows : List (List String)) (program : Program) (p : ResourcePool)
    (h : p ∈ parseResourcePoolCsv rows program) :
    ∃ kv ∈ buildUsersMap (buildColumnMap (rows.getD 0 []) (rows.getD 1 [])) (rows.drop 2),
      dedupeUsers kv.2 ≠ [] ∧
        p = { program := program, state := (decodeKey kv.1).1,
              visitType := (decodeKey kv.1).2, users := dedupeUsers kv.2 } := by
  rw [parseResourcePoolCsv] at h
  by_cases hlen : rows.length < 3
  · simp [hlen] at h
  · rw [if_neg hlen] at h
    exact mem_emitPools _ _ _ ((perm_sortPools _).mem_iff.mp h)

/-- Every value stored in a bucket satisfies `Q` provided it already held for
the bucket list and holds for the appended value. -/
theorem pushUser_forall (Q : String → Prop) (m : List (String × List String)) (k u : String)
    (hm : ∀ kv ∈ m, ∀ x ∈ kv.2, Q x) (hu : Q u) :
    ∀ kv ∈ pushUser m k u, ∀ x ∈ kv.2, Q x := by
  intro kv hkv x hx
  rcases mem_pushUser k u m kv hkv with hin | ⟨_, h2⟩
  · exact hm kv hin x hx
  · rcases h2 with h2 | ⟨us, hus, h3⟩
    · rw [h2] at hx
      rcases List.mem_singleton.mp hx with rfl
      exact hu
    · rw [h3] at hx
      rcases List.mem_append.mp hx with hx' | hx'
      · exact hm (k, us) hus x hx'
      · rcases List.mem_singleton.mp hx' with rfl
        exact hu

/-- Processing one cell never stores a sentinel value. -/
theorem processCell_sentinel (row : List String) (entry : Nat × String × String)
    (m : List (String × List String))
    (hm : ∀ kv ∈ m, ∀ u ∈ kv.2, sentinelName u = false) :
    ∀ kv ∈ processCell row m entry, ∀ u ∈ kv.2, sentinelName u = false := by
  rw [processCell]
  cases hrow : row.get? entry.1 with
  | none => exact hm
  | some cell =>
    by_cases hv : isValidUser (normalizeUserName cell)
    · by_cases hsent : sentinelName (normalizeUserName cell)
      · simpa [hv, hsent] using hm
      · have hpush := pushUser_forall (fun u => sentinelName u = false) m
          (entry.2.1 ++ "|" ++ entry.2.2) (normalizeUserName cell) hm
          (by simpa using hsent)
        simpa [hv, hsent] using hpush
    · simpa [hv] using hm

/-- Every value stored in the users map passed the sentinel filter. -/
theorem buildUsersMap_sentinel (cmap : List (Nat × String × String))
    (dataRows : List (List String)) :
    ∀ kv ∈ buildUsersMap cmap dataRows, ∀ u ∈ kv.2, sentinelName u = false := by
  rw [buildUsersMap]
  refine foldl_preserve
    (fun (m : List (String × List String)) => ∀ kv ∈ m, ∀ u ∈ kv.2, sentinelName u = false)
    (processRow cmap) dataRows [] ?_ (by simp)
  intro m row _ hm
  rw [processRow]
  by_cases hrow : row.isEmpty
  · simpa [hrow] using hm
  · rw [if_neg hrow]
    refine foldl_preserve
      (fun (m : List (String × List String)) => ∀ kv ∈ m, ∀ u ∈ kv.2, sentinelName u = false)
      (processCell row) cmap m ?_ hm
    intro m' entry _ hm'
    exact processCell_sentinel row entry m' hm'

/-! ### Claim C4 — pool users are duplicate-free and non-empty -/

/-- C4: for every input row matrix and program, every emitted `ResourcePool`
has a case-sensitively duplicate-free users list (de-duplication keeps the
first occurrence, see `dedupeUsers`), and no emitted pool has an empty users
list after filtering. -/
theorem C4_users_nodup_nonempty (rows : List (List String)) (program : Program)
    (p : ResourcePool) (h : p ∈ parseResourcePoolCsv rows program) :
    p.users.Nodup ∧ p.users ≠ [] := by
  obtain ⟨kv, _, hne, rfl⟩ := mem_parse rows program p h
  exact ⟨dedupeUsers_nodup kv.2, hne⟩

/-- Witness for C4: the Florida/Initial pool of the worked example has
duplicate-free, non-empty users. -/
theorem C4_witness :
    (ResourcePool.mk Program.HRT "Florida" "Initial" ["John Smith"]).users.Nodup ∧
      (ResourcePool.mk Program.HRT "Florida" "Initial" ["John Smith"]).users ≠ [] :=
  C4_users_nodup_nonempty
    [["Florida", "", "Texas"], ["Initial", "Follow Up", "Initial"],
      ["John Smith", "Maria G", ""]] Program.HRT _ (by decide)

/-! ### Claim C5 — sentinel cells never reach a pool -/

/-- C5: a data cell whose trimmed, whitespace-collapsed form is (case
insensitively) `"Closed"`, `"Key"` or `"Back-Up"`, or contains
`"please add"`, `"pending"`, `"provider has"` or `"license"`, never appears
in the users list of any emitted pool (users are stored in that normalized
form, and `sentinelName` is exactly the code's lower-cased rejection test). -/
theorem C5_sentinels_filtered (rows : List (List String)) (program : Program)
    (p : ResourcePool) (cell : String) (hp : p ∈ parseResourcePoolCsv rows program)
    (hs : sentinelName (normalizeUserName cell) = true) :
    normalizeUserName cell ∉ p.users := by
  intro hmem
  obtain ⟨kv, hkv, _, rfl⟩ := mem_parse rows program p hp
  have hin : normalizeUserName cell ∈ kv.2 := mem_dedupeUsers kv.2 _ hmem
  have hfalse := buildUsersMap_sentinel _ _ kv hkv _ hin
  rw [hs] at hfalse
  exact Bool.noConfusion hfalse

/-- Witness for C5: the cell `" CLOSED "` normalizes to a sentinel and is
absent from the single pool parsed from a small concrete input. -/
theorem C5_witness :
    normalizeUserName " CLOSED " ∉
      (ResourcePool.mk Program.HRT "Florida" "Initial" ["Alice"]).users :=
  C5_sentinels_filtered [["Florida"], ["Initial"], ["Closed"], ["Alice"]] Program.HRT
    _ " CLOSED " (by decide) (by decide)

/-! ### Claim C3 — blank-header column inheritance -/

/-- Look up a column index in the column map (the map is keyed by column
index; `Map.set`/`Map.get` semantics on distinct numeric keys). -/
def cmLookup (i : Nat) : List (Nat × String × String) → Option (String × String)
  | [] => none
  | e :: rest => if e.1 = i then some e.2 else cmLookup i rest

/-- One step of the running `lastValidState` of the header scan: a valid
(non-ignored, non-empty) header replaces the accumulator with its normalized
state, anything else keeps it. -/
def nvbStep (acc : String) (h : String) : String :=
  let t := trimStr h
  if !(shouldIgnoreHeader t) && !(decide (t = "")) then stateNormalize t else acc

/-- The normalized state of the nearest valid header strictly before column
`i` (or `""` when there is none). -/
def nearestValidBefore (headers : List String) (i : Nat) : String :=
  (headers.take i).foldl nvbStep ""

theorem buildCMAux_key_ge (vtRow : List String) :
    ∀ (hs : List String) (j : Nat) (lv : String) (e : Nat × String × String),
      e ∈ buildCMAux vtRow hs j lv → j ≤ e.1 := by
  intro hs
  induction hs with
  | nil => intro j lv e he; simp [buildCMAux] at he
  | cons h₀ hs' ih =>
    intro j lv e he
    simp only [buildCMAux] at he
    split at he
    · rcases List.mem_cons.mp he with rfl | he'
      · exact Nat.le_refl _
      · exact Nat.le_of_succ_le (ih (j + 1) _ e he')
    · split at he
      · rcases List.mem_cons.mp he with rfl | he'
        · exact Nat.le_refl _
        · exact Nat.le_of_succ_le (ih (j + 1) _ e he')
      · exact Nat.le_of_succ_le (ih (j + 1) _ e he)

theorem cmLookup_none_of_lt :
    ∀ (l : List (Nat × String × String)) (i : Nat), (∀ e ∈ l, i < e.1) →
      cmLookup i l = none := by
  intro l
  induction l with
  | nil => intro i _; rfl
  | cons e rest ih =>
    intro i hlt
    rw [cmLookup, if_neg, ih i (fun e' he' => hlt e' (List.mem_cons_of_mem e he'))]
    exact Nat.ne_of_gt (hlt e (List.mem_cons_self e rest))

theorem buildCMAux_lookup_empty (vtRow : List String) :
    ∀ (hs : List String) (j : Nat) (lv : String) (k : Nat) (h : String),
      hs.get? k = some h → trimStr h = "" →
      cmLookup (j + k) (buildCMAux vtRow hs j lv) =
        (if (hs.take k).foldl nvbStep lv = "" then none
         else some ((hs.take k).foldl nvbStep lv, getVisitType (vtRow.getD (j + k) ""))) := by
  intro hs
  induction hs with
  | nil => intro j lv k h hget _; simp at hget
  | cons h₀ hs' ih =>
    intro j lv k h hget htrim
    cases k with
    | zero =>
      simp only [List.get?_cons_zero, Option.some.injEq] at hget
      subst hget
      simp only [List.take_zero, List.foldl_nil, Nat.add_zero]
      simp only [buildCMAux]
      have hc1 : (!shouldIgnoreHeader (trimStr h₀) && !decide (trimStr h₀ = "")) = false := by
        rw [htrim]; decide
      rw [if_neg (by simp [hc1])]
      by_cases hlv : lv = ""
      · have hc2 : (decide (trimStr h₀ = "") && !decide (lv = "")) = false := by
          rw [htrim, hlv]; decide
        rw [if_neg (by simp [hc2]), if_pos hlv]
        exact cmLookup_none_of_lt _ j
          (fun e he => Nat.lt_of_succ_le (buildCMAux_key_ge vtRow hs' (j + 1) lv e he))
      · have hc2 : (decide (trimStr h₀ = "") && !decide (lv = "")) = true := by
          rw [htrim]; simp [hlv]
        rw [if_pos hc2, if_neg hlv]
        simp [cmLookup]
    | succ k' =>
      simp only [List.get?_cons_succ] at hget
      simp only [List.take_succ_cons, List.foldl_cons]
      simp only [buildCMAux]
      by_cases h1 : (!shouldIgnoreHeader (trimStr h₀) && !decide (trimStr h₀ = "")) = true
      · rw [if_pos h1, cmLookup, if_neg (by omega)]
        have hstep : nvbStep lv h₀ = stateNormalize (trimStr h₀) := by
          rw [nvbStep, if_pos h1]
        rw [hstep]
        have := ih (j + 1) (stateNormalize (trimStr h₀)) k' h hget htrim
        rw [show j + 1 + k' = j + (k' + 1) by omega] at this
        exact this
      · rw [if_neg h1]
        have hstep : nvbStep lv h₀ = lv := by
          rw [nvbStep, if_neg h1]
        rw [hstep]
        by_cases h2 : (decide (trimStr h₀ = "") && !decide (lv = "")) = true
        · rw [if_pos h2, cmLookup, if_neg (by omega)]
          have := ih (j + 1) lv k' h hget htrim
          rw [show j + 1 + k' = j + (k' + 1) by omega] at this
          exact this
        · rw [if_neg h2]
          have := ih (j + 1) lv k' h hget htrim
          rw [show j + 1 + k' = j + (k' + 1) by omega] at this
          exact this

theorem buildCMAux_lookup_ignored (vtRow : List String) :
    ∀ (hs : List String) (j : Nat) (lv : String) (k : Nat) (h : String),
      hs.get? k = some h → trimStr h ≠ "" → shouldIgnoreHeader (trimStr h) = true →
      cmLookup (j + k) (buildCMAux vtRow hs j lv) = none := by
  intro hs
  induction hs with
  | nil => intro j lv k h hget _ _; simp at hget
  | cons h₀ hs' ih =>
    intro j lv k h hget htrim hign
    cases k with
    | zero =>
      simp only [List.get?_cons_zero, Option.some.injEq] at hget
      subst hget
      simp only [Nat.add_zero, buildCMAux, hign, Bool.not_true, Bool.false_and,
        Bool.false_eq_true, if_false, decide_eq_true_eq]
      rw [if_neg (by simp [htrim])]
      exact cmLookup_none_of_lt _ j
        (fun e he => Nat.lt_of_succ_le (buildCMAux_key_ge vtRow hs' (j + 1) lv e he))
    | succ k' =>
      simp only [List.get?_cons_succ] at hget
      simp only [buildCMAux]
      have hrec : ∀ lv', cmLookup (j + (k' + 1)) (buildCMAux vtRow hs' (j + 1) lv') = none := by
        intro lv'
        have := ih (j + 1) lv' k' h hget htrim hign
        rw [show j + 1 + k' = j + (k' + 1) by omega] at this
        exact this
      by_cases h1 : (!shouldIgnoreHeader (trimStr h₀) && !decide (trimStr h₀ = "")) = true
      · rw [if_pos h1, cmLookup, if_neg (by omega)]
        exact hrec _
      · rw [if_neg h1]
        by_cases h2 : (decide (trimStr h₀ = "") && !decide (lv = "")) = true
        · rw [if_pos h2, cmLookup, if_neg (by omega)]
          exact hrec _
        · rw [if_neg h2]
          exact hrec _

/-- C3, counterexample.  The claim treats a header such as `"Key"` (a legend
token) as blank and therefore inheriting the nearest preceding valid state
(`"Florida"` here), so `"Bob"` would belong to a Florida pool.  The code
only lets a header that is literally empty after trimming inherit:
the `"Key"` column is dropped from the column map and `"Bob"` appears in no
pool at all. -/
theorem C3_counterexample :
    cmLookup 1 (buildColumnMap ["Florida", "Key"] ["Initial", "Initial"]) = none ∧
      ¬∃ p ∈ parseResourcePoolCsv
          [["Florida", "Key"], ["Initial", "Initial"], ["Alice", "Bob"]] Program.HRT,
        "Bob" ∈ p.users := by
  decide

/-- C3, amended: only a column whose header cell is empty after trimming
inherits the normalized state of the nearest preceding valid (non-ignored,
non-empty) header, taking its own visit-type label; an empty-header column
with no preceding valid state, and any column whose header is non-empty but
rejected (reserved `"unnamed"` marker, `"key"`, or a legend phrase), is
dropped from the column map and thus contributes no pool. -/
theorem C3_amended (headers vtRow : List String) (i : Nat) (h : String)
    (hget : headers.get? i = some h) :
    (trimStr h = "" →
      cmLookup i (buildColumnMap headers vtRow) =
        (if nearestValidBefore headers i = "" then none
         else some (nearestValidBefore headers i, getVisitType (vtRow.getD i "")))) ∧
      (trimStr h ≠ "" → shouldIgnoreHeader (trimStr h) = true →
        cmLookup i (buildColumnMap headers vtRow) = none) := by
  constructor
  · intro htrim
    have := buildCMAux_lookup_empty vtRow headers 0 "" i h hget htrim
    simpa [buildColumnMap, nearestValidBefore] using this
  · intro htrim hign
    have := buildCMAux_lookup_ignored vtRow headers 0 "" i h hget htrim hign
    simpa [buildColumnMap] using this

/-- Witness for C3 at a concrete header row: the empty second column
inherits Florida with its own Follow Up label. -/
theorem C3_witness :
    cmLookup 1 (buildColumnMap ["Florida", ""] ["Initial", "Follow Up"]) =
      some ("Florida", "Follow Up") := by
  rw [(C3_amended ["Florida", ""] ["Initial", "Follow Up"] 1 "" (by decide)).1 (by decide)]
  decide

/-! ### Claim C6 — toggling twice -/

/-- The key on which `toggleExcluded` deduplicates override entries. -/
def toggleKey (e : StateExclusion) : Program × String × String × Option String :=
  (e.program, e.state, lowerTrim e.user, e.visitType)

theorem togglePred_eq (pr : Program) (st ln : String) (qvt : Option String)
    (e : StateExclusion) :
    togglePred pr st ln qvt e = decide (toggleKey e = (pr, st, ln, qvt)) := by
  by_cases h1 : e.program = pr <;> by_cases h2 : e.state = st <;>
    by_cases h3 : lowerTrim e.user = ln <;> by_cases h4 : e.visitType = qvt <;>
    simp [togglePred, toggleKey, Prod.ext_iff, h1, h2, h3, h4]

theorem toggleExcluded_of_none (name st : String) (pr : Program) (qvt : Option String)
    (ov : List StateExclusion)
    (h : ov.findIdx? (togglePred pr st (lowerTrim name) qvt) = none) :
    toggleExcluded name st pr qvt ov =
      ov ++ [{ program := pr, state := st, user := name, visitType := qvt }] := by
  rw [toggleExcluded, h]

theorem toggleExcluded_of_some (name st : String) (pr : Program) (qvt : Option String)
    (ov : List StateExclusion) (i : Nat)
    (h : ov.findIdx? (togglePred pr st (lowerTrim name) qvt) = some i) :
    toggleExcluded name st pr qvt ov = ov.eraseIdx i := by
  rw [toggleExcluded, h]

theorem findIdx?_append_single {α : Type} (p : α → Bool) :
    ∀ (l : List α) (x : α) (i : Nat), (∀ e ∈ l, p e = false) → p x = true →
      List.findIdx? p (l ++ [x]) i = some (i + l.length) := by
  intro l
  induction l with
  | nil => intro x i _ hx; simp [List.findIdx?_cons, hx]
  | cons a l ih =>
    intro x i hall hx
    have ha : p a = false := hall a (List.mem_cons_self a l)
    rw [List.cons_append, List.findIdx?_cons, ha]
    simp only [Bool.false_eq_true, if_false]
    rw [ih x (i + 1) (fun e he => hall e (List.mem_cons_of_mem a he)) hx]
    simp only [Option.some.injEq, List.length_cons]
    omega

theorem eraseIdx_append_single {α : Type} :
    ∀ (l : List α) (x : α), (l ++ [x]).eraseIdx l.length = l := by
  intro l
  induction l with
  | nil => intro x; simp
  | cons a l ih => intro x; simp [List.eraseIdx_cons_succ, ih x]

theorem erase_at_found (K : Program × String × String × Option String) :
    ∀ (l : List StateExclusion) (i : Nat),
      List.findIdx? (fun e => decide (toggleKey e = K)) l = some i →
      List.Pairwise (fun a b => toggleKey a ≠ toggleKey b) l →
      (∃ e ∈ l, toggleKey e = K) ∧ ∀ e ∈ l.eraseIdx i, toggleKey e ≠ K := by
  intro l
  induction l with
  | nil => intro i h _; simp [List.findIdx?_nil] at h
  | cons a l ih =>
    intro i h hnd
    obtain ⟨hhead, htail⟩ := List.pairwise_cons.mp hnd
    rw [List.findIdx?_cons] at h
    by_cases ha : toggleKey a = K
    · rw [if_pos (by simp [ha])] at h
      rcases Option.some.inj h with rfl
      refine ⟨⟨a, List.mem_cons_self a l, ha⟩, ?_⟩
      intro e he
      rw [List.eraseIdx_cons_zero] at he
      exact fun hk => (hhead e he) (ha.trans hk.symm)
    · rw [if_neg (by simp [ha]), List.findIdx?_succ] at h
      cases hfl : List.findIdx? (fun e => decide (toggleKey e = K)) l with
      | none => rw [hfl] at h; simp at h
      | some i' =>
        rw [hfl] at h
        simp only [Option.map_some', Option.some.injEq] at h
        subst h
        obtain ⟨hex, herase⟩ := ih i' hfl htail
        refine ⟨⟨hex.choose, List.mem_cons_of_mem a hex.choose_spec.1, hex.choose_spec.2⟩, ?_⟩
        intro e he
        rw [List.eraseIdx_cons_succ] at he
        rcases List.mem_cons.mp he with rfl | he'
        · exact ha
        · exact herase e he'

/-- C6, counterexample.  The claim quantifies over every resolver state, but
an override list holding two identical entries (possible for a list restored
from persisted storage) breaks the round trip: the triple is excluded before
the two toggles, and each toggle removes one of the duplicates, leaving the
triple not excluded afterwards. -/
theorem C6_counterexample :
    isExcluded ⟨[], []⟩
        [⟨Program.HRT, "Ohio", "Sam", none⟩, ⟨Program.HRT, "Ohio", "Sam", none⟩]
        "Sam" (some "Ohio") (some Program.HRT) none = true ∧
      isExcluded ⟨[], []⟩
        (toggleExcluded "Sam" "Ohio" Program.HRT none
          (toggleExcluded "Sam" "Ohio" Program.HRT none
            [⟨Program.HRT, "Ohio", "Sam", none⟩, ⟨Program.HRT, "Ohio", "Sam", none⟩]))
        "Sam" (some "Ohio") (some Program.HRT) none = false := by
  decide

/-- Unscoped evaluation of `isExcluded` for an empty (falsy) state. -/
theorem isExcluded_empty_state (base : ExclusionsData) (ov : List StateExclusion)
    (name : String) (pr : Program) (vt : Option String) :
    isExcluded base ov name (some "") (some pr) vt =
      globalExcluded base ov (lowerTrim name) := by
  simp [isExcluded]

/-- Scoped evaluation of `isExcluded` for a truthy state. -/
theorem isExcluded_scoped (base : ExclusionsData) (ov : List StateExclusion)
    (name st : String) (pr : Program) (vt : Option String) (hst : st ≠ "") :
    isExcluded base ov name (some st) (some pr) vt =
      (if (ov.find? (scopedPred pr st (lowerTrim name) vt)).isSome then true
       else base.stateExclusions.any (scopedPred pr st (lowerTrim name) vt)) := by
  simp [isExcluded, hst]

/-- C6, amended: on every resolver state whose override list contains no two
entries with the same toggle key (program, state, case-insensitive trimmed
user, exact visit type) — an invariant every override list built by toggles
alone enjoys — toggling a (name, state, program) triple twice returns
`isExcluded(name, state, program)` to its original value. -/
theorem C6_amended (base : ExclusionsData) (ov : List StateExclusion)
    (name st : String) (pr : Program)
    (hnd : List.Pairwise (fun a b => toggleKey a ≠ toggleKey b) ov) :
    isExcluded base
        (toggleExcluded name st pr none (toggleExcluded name st pr none ov))
        name (some st) (some pr) none =
      isExcluded base ov name (some st) (some pr) none := by
  have hpred : togglePred pr st (lowerTrim name) none =
      fun e => decide (toggleKey e = (pr, st, lowerTrim name, none)) :=
    funext (togglePred_eq pr st (lowerTrim name) none)
  cases hfind : ov.findIdx? (togglePred pr st (lowerTrim name) none) with
  | none =>
    have hinner := toggleExcluded_of_none name st pr none ov hfind
    have hall : ∀ e ∈ ov, togglePred pr st (lowerTrim name) none e = false :=
      List.findIdx?_eq_none_iff.mp hfind
    have hx : togglePred pr st (lowerTrim name) none
        (⟨pr, st, name, none⟩ : StateExclusion) = true := by
      rw [togglePred_eq]
      simp [toggleKey]
    have hfound : (ov ++ [(⟨pr, st, name, none⟩ : StateExclusion)]).findIdx?
        (togglePred pr st (lowerTrim name) none) = some ov.length := by
      have := findIdx?_append_single (togglePred pr st (lowerTrim name) none) ov
        (⟨pr, st, name, none⟩ : StateExclusion) 0 hall hx
      simpa using this
    rw [hinner, toggleExcluded_of_some name st pr none _ ov.length hfound,
      eraseIdx_append_single]
  | some i =>
    have hinner := toggleExcluded_of_some name st pr none ov i hfind
    have hfind' : ov.findIdx? (fun e => decide (toggleKey e = (pr, st, lowerTrim name, none))) =
        some i := by rw [← hpred]; exact hfind
    obtain ⟨⟨e₀, he₀, hk₀⟩, herase⟩ := erase_at_found _ ov i hfind' hnd
    have hallerase : ∀ e ∈ ov.eraseIdx i, togglePred pr st (lowerTrim name) none e = false := by
      intro e he
      rw [togglePred_eq]
      simpa using herase e he
    have houter := toggleExcluded_of_none name st pr none (ov.eraseIdx i)
      (List.findIdx?_eq_none_iff.mpr hallerase)
    rw [hinner, houter]
    have hk₀' : e₀.program = pr ∧ e₀.state = st ∧ lowerTrim e₀.user = lowerTrim name ∧
        e₀.visitType = none := by
      simpa [toggleKey, Prod.ext_iff] using hk₀
    by_cases hst : st = ""
    · subst hst
      rw [isExcluded_empty_state, isExcluded_empty_state]
      have hrhs : globalExcluded base ov (lowerTrim name) = true := by
        rw [globalExcluded]
        refine Bool.or_eq_true_iff.mpr (Or.inr ?_)
        exact List.any_eq_true.mpr ⟨e₀, he₀, by simp [hk₀'.2.2.1]⟩
      have hlhs : globalExcluded base
          (ov.eraseIdx i ++ [(⟨pr, "", name, none⟩ : StateExclusion)])
          (lowerTrim name) = true := by
        rw [globalExcluded]
        refine Bool.or_eq_true_iff.mpr (Or.inr ?_)
        exact List.any_eq_true.mpr
          ⟨(⟨pr, "", name, none⟩ : StateExclusion),
            List.mem_append_right _ (List.mem_singleton.mpr rfl), by simp⟩
      rw [hrhs, hlhs]
    · have hm₀ : scopedPred pr st (lowerTrim name) none e₀ = true := by
        simp [scopedPred, falsyOptStr, hk₀'.1, hk₀'.2.1, hk₀'.2.2.1]
      have hmx : scopedPred pr st (lowerTrim name) none
          (⟨pr, st, name, none⟩ : StateExclusion) = true := by
        simp [scopedPred, falsyOptStr]
      have hrhs : (ov.find? (scopedPred pr st (lowerTrim name) none)).isSome = true :=
        List.find?_isSome.mpr ⟨e₀, he₀, hm₀⟩
      have hlhs : ((ov.eraseIdx i ++
          [(⟨pr, st, name, none⟩ : StateExclusion)]).find?
            (scopedPred pr st (lowerTrim name) none)).isSome = true :=
        List.find?_isSome.mpr
          ⟨(⟨pr, st, name, none⟩ : StateExclusion),
            List.mem_append_right _ (List.mem_singleton.mpr rfl), hmx⟩
      rw [isExcluded_scoped base _ name st pr none hst,
        isExcluded_scoped base ov name st pr none hst, hrhs, hlhs]

/-- Witness for C6 on a concrete duplicate-free override list. -/
theorem C6_witness :
    isExcluded ⟨[], []⟩
        (toggleExcluded "Sam" "Ohio" Program.HRT none
          (toggleExcluded "Sam" "Ohio" Program.HRT none
            [⟨Program.HRT, "Ohio", "Sam", none⟩]))
        "Sam" (some "Ohio") (some Program.HRT) none =
      isExcluded ⟨[], []⟩ [⟨Program.HRT, "Ohio", "Sam", none⟩]
        "Sam" (some "Ohio") (some Program.HRT) none :=
  C6_amended ⟨[], []⟩ [⟨Program.HRT, "Ohio", "Sam", none⟩] "Sam" "Ohio" Program.HRT
    (List.pairwise_singleton _ _)

/-! ### Claim C10 — uniqueness of (state, visitType) pairs -/

theorem splitChar_ne_nil (sep : Char) : ∀ l : List Char, splitChar sep l ≠ [] := by
  intro l
  cases l with
  | nil => simp [splitChar]
  | cons c rest =>
    rw [splitChar]
    cases splitChar sep rest with
    | nil => simp
    | cons p ps => by_cases hc : c = sep <;> simp [hc]

theorem splitChar_no_sep (sep : Char) : ∀ l : List Char, sep ∉ l → splitChar sep l = [l] := by
  intro l
  induction l with
  | nil => intro _; rfl
  | cons c rest ih =>
    intro h
    have hc : ¬(c = sep) := fun hcs => h (hcs ▸ List.mem_cons_self c rest)
    rw [splitChar, ih (fun hm => h (List.mem_cons_of_mem c hm))]
    simp [hc]

theorem splitChar_append_sep (sep : Char) :
    ∀ a b : List Char, sep ∉ a → splitChar sep (a ++ sep :: b) = a :: splitChar sep b := by
  intro a
  induction a with
  | nil =>
    intro b _
    rw [List.nil_append, splitChar]
    cases hb : splitChar sep b with
    | nil => exact absurd hb (splitChar_ne_nil sep b)
    | cons p ps => simp
  | cons c a' ih =>
    intro b h
    have hc : ¬(c = sep) := fun hcs => h (hcs ▸ List.mem_cons_self c a')
    rw [List.cons_append, splitChar, ih b (fun hm => h (List.mem_cons_of_mem c hm))]
    simp [hc]

theorem asString_toList (s : String) : s.toList.asString = s := by
  cases s
  rfl

theorem decodeKey_encode (s v : String) (hs : '|' ∉ s.toList) (hv : '|' ∉ v.toList) :
    decodeKey (s ++ "|" ++ v) = (s, v) := by
  have h1 : (s ++ "|" ++ v).toList = s.toList ++ '|' :: v.toList := by
    show (s ++ "|" ++ v).data = s.data ++ '|' :: v.data
    rw [String.data_append, String.data_append, List.append_assoc]
    rfl
  have hsplit : (splitChar '|' (s ++ "|" ++ v).toList).map List.asString = [s, v] := by
    rw [h1, splitChar_append_sep '|' _ _ hs, splitChar_no_sep '|' _ hv]
    simp only [List.map_cons, List.map_nil]
    rw [asString_toList, asString_toList]
  rw [decodeKey, hsplit]

/-- The shape shared by every key of the users map: a bar-free state, a bar,
and a bar-free visit type. -/
abbrev goodKey (k : String) : Prop :=
  ∃ s v : String, k = s ++ "|" ++ v ∧ '|' ∉ s.toList ∧ '|' ∉ v.toList

theorem pushUser_fst (k u : String) :
    ∀ m, (pushUser m k u).map Prod.fst =
      if k ∈ m.map Prod.fst then m.map Prod.fst else m.map Prod.fst ++ [k] := by
  intro m
  induction m with
  | nil => simp [pushUser]
  | cons hd rest ih =>
    obtain ⟨k', us'⟩ := hd
    rw [pushUser]
    by_cases hk : k' = k
    · subst hk
      rw [if_pos (by simp), List.map_cons]
      simp
    · rw [if_neg (by simpa using hk), List.map_cons, List.map_cons, ih]
      by_cases hmem : k ∈ rest.map Prod.fst
      · rw [if_pos hmem, if_pos (by simp [hmem])]
      · rw [if_neg hmem, if_neg (by simp [hmem, Ne.symm hk])]
        simp

theorem pushUser_nodup (k u : String) (m : List (String × List String))
    (h : (m.map Prod.fst).Nodup) : ((pushUser m k u).map Prod.fst).Nodup := by
  rw [pushUser_fst]
  by_cases hmem : k ∈ m.map Prod.fst
  · rwa [if_pos hmem]
  · rw [if_neg hmem]
    rw [(List.perm_append_singleton k (m.map Prod.fst)).nodup_iff]
    exact List.nodup_cons.mpr ⟨hmem, h⟩

theorem pushUser_keys_forall (Q : String → Prop) (m : List (String × List String))
    (k u : String) (hm : ∀ kv ∈ m, Q kv.1) (hk : Q k) :
    ∀ kv ∈ pushUser m k u, Q kv.1 := by
  intro kv hkv
  rcases mem_pushUser k u m kv hkv with hin | ⟨h1, _⟩
  · exact hm kv hin
  · rw [h1]; exact hk

/-- The two invariants of the users map needed for uniqueness: keys are
pairwise distinct (it models a `Map`), and every key was built from some
column-map entry as `state ++ "|" ++ visitType`. -/
abbrev mapInv (cmap : List (Nat × String × String)) (m : List (String × List String)) : Prop :=
  (m.map Prod.fst).Nodup ∧ ∀ kv ∈ m, ∃ ent ∈ cmap, kv.1 = ent.2.1 ++ "|" ++ ent.2.2

theorem processCell_mapInv (cmap : List (Nat × String × String)) (row : List String)
    (entry : Nat × String × String) (hent : entry ∈ cmap)
    (m : List (String × List String)) (hm : mapInv cmap m) :
    mapInv cmap (processCell row m entry) := by
  rw [processCell]
  cases row.get? entry.1 with
  | none => exact hm
  | some cell =>
    by_cases hv : isValidUser (normalizeUserName cell)
    · by_cases hsent : sentinelName (normalizeUserName cell)
      · simpa [hv, hsent] using hm
      · have hres : mapInv cmap
            (pushUser m (entry.2.1 ++ "|" ++ entry.2.2) (normalizeUserName cell)) :=
          ⟨pushUser_nodup _ _ m hm.1,
            pushUser_keys_forall (fun k => ∃ ent ∈ cmap, k = ent.2.1 ++ "|" ++ ent.2.2)
              m _ _ hm.2 ⟨entry, hent, rfl⟩⟩
        simpa [hv, hsent] using hres
    · simpa [hv] using hm

theorem buildUsersMap_mapInv (cmap : List (Nat × String × String))
    (dataRows : List (List String)) : mapInv cmap (buildUsersMap cmap dataRows) := by
  rw [buildUsersMap]
  refine foldl_preserve (mapInv cmap) (processRow cmap) dataRows [] ?_ ⟨by simp, by simp⟩
  intro m row _ hm
  rw [processRow]
  by_cases hrow : row.isEmpty
  · simpa [hrow] using hm
  · rw [if_neg hrow]
    refine foldl_preserve (mapInv cmap) (processCell row) cmap m ?_ hm
    intro m' entry hent hm'
    exact processCell_mapInv cmap row entry hent m' hm'

theorem buildCMAux_state (vtRow : List String) :
    ∀ (hs : List String) (j : Nat) (lv : String) (ent : Nat × String × String),
      ent ∈ buildCMAux vtRow hs j lv →
      (∃ h ∈ hs, ent.2.1 = stateNormalize (trimStr h)) ∨ ent.2.1 = lv := by
  intro hs
  induction hs with
  | nil => intro j lv ent hent; simp [buildCMAux] at hent
  | cons h₀ hs' ih =>
    intro j lv ent hent
    simp only [buildCMAux] at hent
    split at hent
    · rcases List.mem_cons.mp hent with rfl | hent'
      · exact Or.inl ⟨h₀, List.mem_cons_self h₀ hs', rfl⟩
      · rcases ih (j + 1) _ ent hent' with ⟨h, hh, hsn⟩ | hlv
        · exact Or.inl ⟨h, List.mem_cons_of_mem h₀ hh, hsn⟩
        · exact Or.inl ⟨h₀, List.mem_cons_self h₀ hs', hlv⟩
    · split at hent
      · rcases List.mem_cons.mp hent with rfl | hent'
        · exact Or.inr rfl
        · rcases ih (j + 1) _ ent hent' with ⟨h, hh, hsn⟩ | hlv
          · exact Or.inl ⟨h, List.mem_cons_of_mem h₀ hh, hsn⟩
          · exact Or.inr hlv
      · rcases ih (j + 1) _ ent hent with ⟨h, hh, hsn⟩ | hlv
        · exact Or.inl ⟨h, List.mem_cons_of_mem h₀ hh, hsn⟩
        · exact Or.inr hlv

theorem getVisitType_cases (label : String) :
    getVisitType label = "Initial" ∨ getVisitType label = "Follow Up" := by
  rw [getVisitType]
  split
  · exact Or.inr rfl
  · exact Or.inl rfl

theorem buildCMAux_vt (vtRow : List String) :
    ∀ (hs : List String) (j : Nat) (lv : String) (ent : Nat × String × String),
      ent ∈ buildCMAux vtRow hs j lv →
      ent.2.2 = "Initial" ∨ ent.2.2 = "Follow Up" := by
  intro hs
  induction hs with
  | nil => intro j lv ent hent; simp [buildCMAux] at hent
  | cons h₀ hs' ih =>
    intro j lv ent hent
    simp only [buildCMAux] at hent
    split at hent
    · rcases List.mem_cons.mp hent with rfl | hent'
      · exact getVisitType_cases _
      · exact ih (j + 1) _ ent hent'
    · split at hent
      · rcases List.mem_cons.mp hent with rfl | hent'
        · exact getVisitType_cases _
        · exact ih (j + 1) _ ent hent'
      · exact ih (j + 1) _ ent hent

theorem emit_proj_sublist (program : Program) :
    ∀ m, ((emitPools program m).map (fun p => (p.state, p.visitType))).Sublist
      (m.map (fun kv => decodeKey kv.1)) := by
  intro m
  induction m with
  | nil => simp [emitPools]
  | cons kv m ih =>
    rw [emitPools, List.filterMap_cons]
    by_cases he : (dedupeUsers kv.2).isEmpty
    · rw [if_pos he]
      exact List.Sublist.cons _ ih
    · rw [if_neg he, List.map_cons, List.map_cons]
      exact List.Sublist.cons₂ _ ih

theorem nodup_decode_map (m : List (String × List String))
    (hnd : (m.map Prod.fst).Nodup) (hgood : ∀ k ∈ m.map Prod.fst, goodKey k) :
    (m.map (fun kv => decodeKey kv.1)).Nodup := by
  rw [show (fun kv : String × List String => decodeKey kv.1) =
      decodeKey ∘ Prod.fst from rfl, ← List.map_map]
  refine List.Nodup.map_on ?_ hnd
  intro x hx y hy hxy
  obtain ⟨s₁, v₁, rfl, hs₁, hv₁⟩ := hgood x hx
  obtain ⟨s₂, v₂, rfl, hs₂, hv₂⟩ := hgood y hy
  rw [decodeKey_encode s₁ v₁ hs₁ hv₁, decodeKey_encode s₂ v₂ hs₂ hv₂] at hxy
  obtain ⟨h1, h2⟩ := Prod.mk.injEq .. ▸ hxy
  rw [h1, h2]

/-- C10, counterexample.  A state name containing the internal bucket-key
separator `"|"` breaks the key round trip: `"A|B"` with an Initial and a
Follow Up column produces the keys `"A|B|Initial"` and `"A|B|Follow Up"`,
both of which `key.split("|")` decodes to state `"A"` and visit type `"B"`,
so two emitted pools carry the same (state, visitType) pair. -/
theorem C10_counterexample :
    ¬ ((parseResourcePoolCsv [["A|B", ""], ["Initial", "Follow Up"], ["X", "Y"]]
        Program.HRT).map (fun p => (p.state, p.visitType))).Nodup := by
  decide

/-- C10, amended: when no header's normalized state name contains the `"|"`
character, no two pools in the parser's output carry the same
(state, visitType) pair; for state names containing `"|"` the claim fails
(see the counterexample). -/
theorem C10_amended (rows : List (List String)) (program : Program)
    (H : ∀ h ∈ rows.getD 0 [], '|' ∉ (stateNormalize (trimStr h)).toList) :
    ((parseResourcePoolCsv rows program).map (fun p => (p.state, p.visitType))).Nodup := by
  rw [parseResourcePoolCsv]
  by_cases hlen : rows.length < 3
  · simp [hlen]
  · rw [if_neg hlen]
    have hperm : List.Perm
        ((sortPools (emitPools program
          (buildUsersMap (buildColumnMap (rows.getD 0 []) (rows.getD 1 [])) (rows.drop 2)))).map
            (fun p => (p.state, p.visitType)))
        ((emitPools program
          (buildUsersMap (buildColumnMap (rows.getD 0 []) (rows.getD 1 [])) (rows.drop 2))).map
            (fun p => (p.state, p.visitType))) :=
      (perm_sortPools _).map _
    rw [hperm.nodup_iff]
    have hinv := buildUsersMap_mapInv (buildColumnMap (rows.getD 0 []) (rows.getD 1 []))
      (rows.drop 2)
    have hgood : ∀ k ∈ (buildUsersMap (buildColumnMap (rows.getD 0 []) (rows.getD 1 []))
        (rows.drop 2)).map Prod.fst, goodKey k := by
      intro k hk
      obtain ⟨kv, hkv, rfl⟩ := List.mem_map.mp hk
      obtain ⟨ent, hent, heq⟩ := hinv.2 kv hkv
      refine ⟨ent.2.1, ent.2.2, heq, ?_, ?_⟩
      · rcases buildCMAux_state (rows.getD 1 []) (rows.getD 0 []) 0 "" ent hent with
          ⟨h, hh, hsn⟩ | hlv
        · rw [hsn]; exact H h hh
        · rw [hlv]; simp
      · rcases buildCMAux_vt (rows.getD 1 []) (rows.getD 0 []) 0 "" ent hent with h | h <;>
          rw [h] <;> decide
    exact List.Nodup.sublist (emit_proj_sublist program _)
      (nodup_decode_map _ hinv.1 hgood)

/-- Witness for C10 on the worked example, whose headers contain no bar. -/
theorem C10_witness :
    ((parseResourcePoolCsv
        [["Florida", "", "Texas"], ["Initial", "Follow Up", "Initial"],
          ["John Smith", "Maria G", ""]] Program.HRT).map
      (fun p => (p.state, p.visitType))).Nodup :=
  C10_amended
    [["Florida", "", "Texas"], ["Initial", "Follow Up", "Initial"],
      ["John Smith", "Maria G", ""]] Program.HRT (by decide)

end Oncehub
